import Mathlib

/-!
# Verification of the orders-to-suppliers transformation pipeline

A shallow embedding of `scripts/orders_to_suppliers.py`: the in-memory table
model, the column-name normalization, the helper functions (`to_date`,
`po_date_plus`, `concat`), the computed-field expression evaluator, the
filter / rename / output-shaping stages and the validator, together with
theorems settling the specification claims about them.

Modelling conventions:
* a cell is `Option String`; `none` models a pandas `NaN` / missing value,
  `some s` a text cell (the loader forces `dtype=str`);
* a table is an ordered column-name list plus rows of cells, row `i`
  positionally aligned with the column list;
* numbers parsed from cells (`pd.to_numeric(..., errors := coerce)`) are
  modelled by `parseNumeric`, covering the decimal-literal fragment
  (optional sign, digits, optional fractional part) of the pandas parser;
* Python character classes (`\w`, `str.lower`, whitespace) are modelled on
  their ASCII fragment.
-/

namespace OrdersToSuppliers

/-- A cell value: `none` models pandas `NaN` (missing), `some s` a text cell. -/
abbrev Cell := Option String

/-- The in-memory table: ordered column names and positionally aligned rows. -/
structure Table where
  cols : List String
  rows : List (List Cell)
  deriving Repr, DecidableEq

/-- Well-formedness: every row has exactly one cell per column. -/
def Table.WF (t : Table) : Bool :=
  t.rows.all (fun r => r.length == t.cols.length)

/-- Label-based cell lookup (`row.get(k)` / `df[c]` on one row): the first
column with the given name; `none` (NaN) when the column or cell is absent. -/
def getCell (cols : List String) (row : List Cell) (c : String) : Cell :=
  match cols.findIdx? (fun c0 => c0 == c) with
  | some i => row.getD i none
  | none => none

/-- Label-based cell update (`df[c] = v` restricted to one existing column). -/
def setCellAt (cols : List String) (row : List Cell) (c : String) (v : Cell) :
    List Cell :=
  match cols.findIdx? (fun c0 => c0 == c) with
  | some i => row.set i v
  | none => row

/-- The typed errors of the pipeline (§7 of the spec maps each Python
`ValueError` raise site to one of these). -/
inductive PErr where
  | missingColumn : String → PErr
  | validationError : String → String → PErr
  | invalidDate : PErr
  | nameError : String → PErr
  | typeError : PErr
  deriving Repr, DecidableEq

instance {ε α : Type} [DecidableEq ε] [DecidableEq α] : DecidableEq (Except ε α) :=
  fun x y =>
    match x, y with
    | .ok a, .ok b =>
      if h : a = b then .isTrue (congrArg Except.ok h)
      else .isFalse (fun he => h (Except.ok.inj he))
    | .error a, .error b =>
      if h : a = b then .isTrue (congrArg Except.error h)
      else .isFalse (fun he => h (Except.error.inj he))
    | .ok _, .error _ => .isFalse (fun he => Except.noConfusion he)
    | .error _, .ok _ => .isFalse (fun he => Except.noConfusion he)

/-! ## Character-list primitives

Python string operations are modelled on character lists (structural
recursion, so every definition evaluates inside the kernel). -/

/-- Whitespace (`\s`, `str.strip()`), ASCII fragment. -/
def isWS (c : Char) : Bool := c.isWhitespace

/-- An ASCII digit. -/
def isDigitChar (c : Char) : Bool := decide (48 ≤ c.toNat ∧ c.toNat ≤ 57)

/-- Python `str.strip(chars)`: remove the characters satisfying `p` from both ends. -/
def stripEnds (p : Char → Bool) (l : List Char) : List Char :=
  ((l.dropWhile p).reverse.dropWhile p).reverse

/-- Strip only the trailing characters satisfying `p` (the right half of
`stripEnds`, as its own function for the proofs). -/
def dropEndWhile (p : Char → Bool) (l : List Char) : List Char :=
  (l.reverse.dropWhile p).reverse

/-- Python `str.split(sep)` for a one-character separator. -/
def splitOnChar (sep : Char) : List Char → List (List Char)
  | [] => [[]]
  | c :: cs =>
    match splitOnChar sep cs with
    | [] => [[]]
    | h :: t => if c == sep then [] :: h :: t else (c :: h) :: t

/-! ## Numeric coercion: `pd.to_numeric(errors="coerce")` -/

/-- All characters are ASCII digits. -/
def allDigits (l : List Char) : Bool := l.all isDigitChar

/-- Decimal value of an all-digit character list. -/
def digitsNat (l : List Char) : Nat :=
  l.foldl (fun n c => n * 10 + (c.toNat - 48)) 0

/-- Model of `pd.to_numeric(x, errors="coerce")` on one text cell: the
decimal-literal fragment (optional surrounding whitespace, optional sign,
digits with an optional single decimal point); anything else coerces to
NaN, modelled as `none`. -/
def parseNumeric (s : String) : Option Rat :=
  let t := stripEnds isWS s.data
  let (neg, body) :=
    match t with
    | '-' :: r => (true, r)
    | '+' :: r => (false, r)
    | r => (false, r)
  let signedInt : Nat → Int := fun n => if neg then -(n : Int) else (n : Int)
  match splitOnChar '.' body with
  | [ip] =>
    if ip.isEmpty || !allDigits ip then none
    else some (mkRat (signedInt (digitsNat ip)) 1)
  | [ip, fp] =>
    if (ip.isEmpty && fp.isEmpty) || !allDigits ip || !allDigits fp then none
    else some (mkRat (signedInt (digitsNat ip * 10 ^ fp.length + digitsNat fp)) (10 ^ fp.length))
  | _ => none

/-- Truncation toward zero, the `astype(int)` conversion of a float column. -/
def ratTrunc (q : Rat) : Int :=
  if 0 ≤ q then q.floor else -((-q).floor)

/-! ## Column-name normalization (`normalize_column_name`) -/

/-- A regex word character (`\w`), ASCII fragment: digit, letter of either
case, or underscore (code point 95). -/
def isWordChar (c : Char) : Bool :=
  decide ((48 ≤ c.toNat ∧ c.toNat ≤ 57) ∨ (65 ≤ c.toNat ∧ c.toNat ≤ 90)
    ∨ (97 ≤ c.toNat ∧ c.toNat ≤ 122) ∨ c.toNat = 95)

/-- Worker for `collapseNonWord`; the flag records whether we are inside a
run of non-word characters whose replacement underscore was already
emitted. -/
def collapseNonWordGo : Bool → List Char → List Char
  | _, [] => []
  | inRun, c :: cs =>
    if isWordChar c then c :: collapseNonWordGo false cs
    else if inRun then collapseNonWordGo true cs
    else '_' :: collapseNonWordGo true cs

/-- Python `re.sub(r"\W+", "_", ·)`: every maximal run of non-word characters is
replaced by a single underscore. -/
def collapseNonWord (l : List Char) : List Char :=
  collapseNonWordGo false l

/-- Python `str.lower()`, modelled character-wise on its ASCII branch. -/
def lowerStr (s : String) : String :=
  String.mk (s.data.map Char.toLower)

/-- Model of `normalize_column_name`: `re.sub(r"\W+", "_", name).strip("_").lower()`. -/
def normalize_column_name (s : String) : String :=
  lowerStr (String.mk (stripEnds (fun c => c == '_') (collapseNonWord s.data)))

/-! ## Date helpers (`to_date`, `po_date_plus`)

Calendar arithmetic uses the standard civil-calendar day-number conversion
(floor division on `Int`). The model is total on day numbers; the Python
`datetime` range (years 1–9999, `OverflowError` outside) and the pandas
`Timestamp` bounds are not modelled, and no claim evaluates outside them. -/

structure Date where
  year : Int
  month : Nat
  day : Nat
  deriving Repr, DecidableEq

/-- Gregorian leap-year rule (Python `%` and Lean `Int.emod` agree on
nonnegative moduli). -/
def isLeap (y : Int) : Bool :=
  (y % 4 == 0 && y % 100 != 0) || y % 400 == 0

/-- Length of a month in the given year. -/
def daysInMonth (y : Int) (m : Nat) : Nat :=
  if m == 2 then (if isLeap y then 29 else 28)
  else if m == 4 || m == 6 || m == 9 || m == 11 then 30
  else 31

/-- Python `datetime.strptime(s, "%Y-%m-%d")` as a partial parser: exactly four
digits of year (at least year 1, Python MINYEAR), one or two digits of month
and day, and a valid calendar date. `none` models the `ValueError`. -/
def parseISODate (s : String) : Option Date :=
  match splitOnChar '-' s.data with
  | [ys, ms, ds] =>
    if ys.length = 4 ∧ allDigits ys = true
        ∧ 1 ≤ ms.length ∧ ms.length ≤ 2 ∧ allDigits ms = true
        ∧ 1 ≤ ds.length ∧ ds.length ≤ 2 ∧ allDigits ds = true then
      let y : Int := (digitsNat ys : Int)
      let m := digitsNat ms
      let d := digitsNat ds
      if 1 ≤ y ∧ 1 ≤ m ∧ m ≤ 12 ∧ 1 ≤ d ∧ d ≤ daysInMonth y m then
        some ⟨y, m, d⟩
      else none
    else none
  | _ => none

/-- Days since 1970-01-01 of a civil date (Howard Hinnant's algorithm). -/
def toDays (dt : Date) : Int :=
  let y : Int := if dt.month ≤ 2 then dt.year - 1 else dt.year
  let era : Int := Int.fdiv y 400
  let yoe : Nat := (y - era * 400).toNat
  let mp : Nat := if 2 < dt.month then dt.month - 3 else dt.month + 9
  let doy : Nat := (153 * mp + 2) / 5 + (dt.day - 1)
  let doe : Nat := yoe * 365 + yoe / 4 - yoe / 100 + doy
  era * 146097 + (doe : Int) - 719468

/-- Civil date of a day number since 1970-01-01 (inverse of `toDays`). -/
def fromDays (z : Int) : Date :=
  let z0 : Int := z + 719468
  let era : Int := Int.fdiv z0 146097
  let doe : Nat := (z0 - era * 146097).toNat
  let yoe : Nat := (doe - doe / 1460 + doe / 36524 - doe / 146096) / 365
  let y : Int := (yoe : Int) + era * 400
  let doy : Nat := doe - (365 * yoe + yoe / 4 - yoe / 100)
  let mp : Nat := (5 * doy + 2) / 153
  let d : Nat := doy - (153 * mp + 2) / 5 + 1
  let m : Nat := if mp < 10 then mp + 3 else mp - 9
  ⟨if m ≤ 2 then y + 1 else y, m, d⟩

/-- Python `date + timedelta(days=n)` as day-number arithmetic. -/
def addDays (dt : Date) (n : Int) : Date :=
  fromDays (toDays dt + n)

/-- Left-pad a decimal numeral with zeros to the given width. -/
def padNat (w : Nat) (n : Nat) : String :=
  let s := toString n
  String.mk (List.replicate (w - s.length) '0') ++ s

/-- Python `strftime("%Y-%m-%d")`. -/
def formatDate (dt : Date) : String :=
  padNat 4 dt.year.toNat ++ "-" ++ padNat 2 dt.month ++ "-" ++ padNat 2 dt.day

/-! ## Python values inside the computed-field evaluator

`eval` runs over Python objects. The values a configured expression can
produce are modelled by `PyVal`: strings and NaN (the cell values), integer
literals, the three helper functions, the pandas module (bound as `pd` in
the evaluation environment by `apply_computed`), an attribute fetched from
the pandas module, the empty dict (the value of the key `__builtins__` in
the globals dict `eval` is given, which name lookup reaches after the
locals), and a generic host object standing for anything further reached
through pandas (attribute chains, results of calling its functions). -/

inductive PyVal where
  | str : String → PyVal
  | int : Int → PyVal
  | nan : PyVal
  | helper : String → PyVal
  | pandasModule : PyVal
  | pandasAttr : String → PyVal
  | emptyDict : PyVal
  | hostValue : PyVal
  deriving Repr, DecidableEq

/-- Python `str(p)` on the modelled values (reprs of non-primitive objects are
placeholders; no claim inspects them). -/
def pyStrOf : PyVal → String
  | .str s => s
  | .int n => toString n
  | .nan => "nan"
  | .helper h => "<function " ++ h ++ ">"
  | .pandasModule => "<module pandas>"
  | .pandasAttr a => "<pandas " ++ a ++ ">"
  | .emptyDict => "\x7b\x7d"
  | .hostValue => "<host object>"

/-- A row cell as seen from the evaluator (`row.get(k)`). -/
def cellToVal : Cell → PyVal
  | none => .nan
  | some s => .str s

/-- An evaluation result stored back into a column (`df[col] = ...`). -/
def cellOfVal : PyVal → Cell
  | .str s => some s
  | .nan => none
  | v => some (pyStrOf v)

/-! ## `to_date`, `po_date_plus`, `concat` -/

/-- Helper `to_date`: `pd.isna` guard, then `pd.to_datetime(errors="coerce")`
(modelled on ISO `YYYY-MM-DD` inputs via `parseISODate`), formatting as
`%Y-%m-%d`; any unparseable or invalid input degrades to `""`. -/
def to_date (v : PyVal) : String :=
  match v with
  | .nan => ""
  | .str s =>
    match parseISODate s with
    | none => ""
    | some d => formatDate d
  | _ => ""

/-- Helper `po_date_plus`: empty in, empty out; otherwise strict `%Y-%m-%d` parse
(`ValueError`, i.e. `InvalidDate`, when it fails) and a calendar-day shift. -/
def po_date_plus (date_str : String) (days : Int) : Except PErr String :=
  if date_str = "" then .ok ""
  else
    match parseISODate date_str with
    | none => .error .invalidDate
    | some d => .ok (formatDate (addDays d days))

/-- Worker for `collapseWS`; the flag records whether we are inside a
whitespace run whose replacement space was already emitted. -/
def collapseWSGo : Bool → List Char → List Char
  | _, [] => []
  | inRun, c :: cs =>
    if isWS c then
      (if inRun then collapseWSGo true cs else ' ' :: collapseWSGo true cs)
    else c :: collapseWSGo false cs

/-- Python `re.sub(r"\s+", " ", ·)`: every maximal whitespace run becomes one space. -/
def collapseWS (l : List Char) : List Char :=
  collapseWSGo false l

/-- Python `" ".join(·)` on character lists. -/
def joinSp : List (List Char) → List Char
  | [] => []
  | [s] => s
  | s :: rest => s ++ ' ' :: joinSp rest

/-- The maximal whitespace-free words of a character list, in order (used
only to state what `concat` computes; not part of the source). -/
def wordsOf : List Char → List (List Char)
  | [] => []
  | c :: cs =>
    if isWS c then wordsOf (cs.dropWhile isWS)
    else (c :: cs.takeWhile (fun d => !isWS d)) :: wordsOf (cs.dropWhile (fun d => !isWS d))
termination_by l => l.length
decreasing_by
  · simp only [List.length_cons]
    have := (List.dropWhile_sublist (l := cs) isWS).length_le
    omega
  · simp only [List.length_cons]
    have := (List.dropWhile_sublist (l := cs) (fun d => !isWS d)).length_le
    omega

/-- The string form `concat` gives one argument: strings pass through,
NaN becomes `""`, anything else is `str(p)`. -/
def concatPartStr : PyVal → String
  | .str s => s
  | .nan => ""
  | v => pyStrOf v

/-- A part is kept by `concat` when it is truthy (non-empty) and not the
string `"nan"`. -/
def keepPart (x : String) : Bool := !(x == "") && !(x == "nan")

/-- Helper `concat(*parts)`: stringify, join the kept parts with single spaces,
collapse whitespace runs, strip both ends. -/
def concat (parts : List PyVal) : String :=
  let vals := parts.map concatPartStr
  let kept := vals.filter keepPart
  String.mk (stripEnds isWS (collapseWS (joinSp (kept.map String.data))))

/-! ## The computed-field expression evaluator (`apply_computed`)

Configured expressions are Python expressions run by `eval` with a globals
dict holding only the key `__builtins__` bound to an empty dict, and with
`local_vars` binding every current column of the row and, overriding them,
`to_date`, `po_date_plus`, `concat` and the pandas module `pd`. Name
lookup searches the locals, then that globals dict — whose own key
`__builtins__` therefore resolves — and then the (empty) builtins. The
expression language is modelled post-parse: literals, identifier
references, attribute access and calls. Attribute access is modelled as
always producing an object (Python raises `AttributeError` only for
genuinely missing attributes; no claim depends on that corner). -/

inductive Expr where
  | lit : PyVal → Expr
  | ident : String → Expr
  | attr : Expr → String → Expr
  | call : Expr → List Expr → Expr
  deriving Repr

mutual

/-- The identifiers an expression references. -/
def identsOf : Expr → List String
  | .lit _ => []
  | .ident x => [x]
  | .attr e _ => identsOf e
  | .call f args => identsOf f ++ identsOfList args

/-- The identifiers referenced anywhere in an argument list. -/
def identsOfList : List Expr → List String
  | [] => []
  | e :: es => identsOf e ++ identsOfList es

end

/-- Name lookup in the per-row environment. CPython resolves an unqualified
name in the locals, then in the globals dict, then in the builtins. The
locals are `local_vars` — the row's columns overridden by the helper names
and `pd` (`local_vars.update(env)`). The globals dict is the literal
`eval` argument holding the single key `__builtins__` bound to the empty
dict, so the identifier `__builtins__` itself resolves (to that empty
dict) when no local shadows it; the empty builtins stop anything else
from resolving. -/
def lookupName (cols : List String) (row : List Cell) (x : String) : Option PyVal :=
  if x == "to_date" then some (.helper "to_date")
  else if x == "po_date_plus" then some (.helper "po_date_plus")
  else if x == "concat" then some (.helper "concat")
  else if x == "pd" then some .pandasModule
  else if cols.contains x then some (cellToVal (getCell cols row x))
  else if x == "__builtins__" then some .emptyDict
  else none

/-- Calling one of the three helpers with evaluated arguments; anything with
the wrong shape raises `TypeError`. -/
def applyHelper (h : String) (args : List PyVal) : Except PErr PyVal :=
  match h, args with
  | "to_date", [v] => .ok (.str (to_date v))
  | "po_date_plus", [.str s] => (po_date_plus s 0).map .str
  | "po_date_plus", [.str s, .int n] => (po_date_plus s n).map .str
  | "concat", vs => .ok (.str (concat vs))
  | _, _ => .error .typeError

/-- Applying a call: helpers run `applyHelper`; pandas attributes execute
host functionality and yield a host object; nothing else is callable. -/
def applyCall : PyVal → List PyVal → Except PErr PyVal
  | .helper h, args => applyHelper h args
  | .pandasAttr _, _ => .ok .hostValue
  | .hostValue, _ => .ok .hostValue
  | _, _ => .error .typeError

mutual

/-- One `eval(expr, {"__builtins__": {}}, local_vars)` step for a row. -/
def evalExpr (cols : List String) (row : List Cell) : Expr → Except PErr PyVal
  | .lit v => .ok v
  | .ident x =>
    match lookupName cols row x with
    | some v => .ok v
    | none => .error (.nameError x)
  | .attr e a =>
    match evalExpr cols row e with
    | .error msg => .error msg
    | .ok v =>
      match v with
      | .pandasModule => .ok (.pandasAttr a)
      | _ => .ok .hostValue
  | .call f args =>
    match evalExpr cols row f with
    | .error msg => .error msg
    | .ok fv =>
      match evalArgs cols row args with
      | .error msg => .error msg
      | .ok avs => applyCall fv avs

/-- Left-to-right evaluation of argument lists. -/
def evalArgs (cols : List String) (row : List Cell) : List Expr → Except PErr (List PyVal)
  | [] => .ok []
  | e :: es =>
    match evalExpr cols row e with
    | .error msg => .error msg
    | .ok v =>
      match evalArgs cols row es with
      | .error msg => .error msg
      | .ok vs => .ok (v :: vs)

end

/-- Pandas `df[col] = vals`: overwrite an existing column in place or append a new
one on the right. -/
def setColumn (t : Table) (c : String) (vals : List Cell) : Table :=
  match t.cols.findIdx? (fun c0 => c0 == c) with
  | some i => { cols := t.cols, rows := (t.rows.zip vals).map (fun rv => rv.1.set i rv.2) }
  | none => { cols := t.cols ++ [c], rows := (t.rows.zip vals).map (fun rv => rv.1 ++ [rv.2]) }

/-- Model of `apply_computed`: for each configured `(column, expression)` pair in
order, evaluate the expression once per row and store the results; any
evaluation error aborts the run. -/
def apply_computed (t : Table) (computed : List (String × Expr)) : Except PErr Table :=
  computed.foldlM (fun acc ce => do
    let vals ← acc.rows.mapM (fun r => evalExpr acc.cols r ce.2)
    pure (setColumn acc ce.1 (vals.map cellOfVal))) t

/-- The identifiers the sandbox-containment claim allows: the three declared
helper functions plus the row's current columns. -/
def claimAllowed (cols : List String) : List String :=
  ["to_date", "po_date_plus", "concat"] ++ cols

/-- The names actually resolvable in the evaluation environment the code
builds: the claim's set plus the pandas module `pd` (in the locals) and
`__builtins__` (the key of the globals dict `eval` receives). -/
def evalEnvNames (cols : List String) : List String :=
  ["to_date", "po_date_plus", "concat", "pd", "__builtins__"] ++ cols

/-! ## Filter stage -/

/-- The `filters` configuration section. An empty status list models an
absent or empty (falsy) entry, which the code skips; `min_quantity` is
applied whenever present, including at threshold `0`. -/
structure FiltersCfg where
  include_financial_status : List String
  exclude_fulfillment_status : List String
  min_quantity : Option Int
  deriving Repr, DecidableEq

/-- Filter `include_financial_status`: keep rows whose lower-cased
`financial_status` (NaN filled with `""`) is in the lower-cased configured
set; `MissingColumn` when the column is absent. -/
def includeStep (t : Table) (inc : List String) : Except PErr Table :=
  if inc.isEmpty then .ok t
  else if t.cols.contains "financial_status" then
    .ok { cols := t.cols, rows := t.rows.filter (fun r =>
      (inc.map lowerStr).contains (lowerStr ((getCell t.cols r "financial_status").getD ""))) }
  else .error (.missingColumn "financial_status")

/-- Filter `exclude_fulfillment_status`: symmetric exclusion on
`fulfillment_status`. -/
def excludeStep (t : Table) (exc : List String) : Except PErr Table :=
  if exc.isEmpty then .ok t
  else if t.cols.contains "fulfillment_status" then
    .ok { cols := t.cols, rows := t.rows.filter (fun r =>
      !(exc.map lowerStr).contains (lowerStr ((getCell t.cols r "fulfillment_status").getD ""))) }
  else .error (.missingColumn "fulfillment_status")

/-- Quantity column resolution: `lineitem_quantity` first, then `qty`. -/
def resolveQtyCol (cols : List String) : Option String :=
  if cols.contains "lineitem_quantity" then some "lineitem_quantity"
  else if cols.contains "qty" then some "qty"
  else none

/-- Pandas `pd.to_numeric(errors="coerce").fillna(0).astype(int)` on one cell. -/
def coerceQty (c : Cell) : Int :=
  ratTrunc ((c.bind parseNumeric).getD 0)

/-- The `min_quantity` filter: resolve the quantity column, overwrite it
with its integer coercion, and keep rows with coerced quantity ≥ threshold. -/
def minQuantityStep (t : Table) (thr : Int) : Except PErr Table :=
  match resolveQtyCol t.cols with
  | none => .error (.missingColumn "min_quantity")
  | some qc =>
    let tagged := t.rows.map (fun r =>
      (coerceQty (getCell t.cols r qc),
       setCellAt t.cols r qc (some (toString (coerceQty (getCell t.cols r qc))))))
    .ok { cols := t.cols, rows := (tagged.filter (fun p => decide (thr ≤ p.1))).map Prod.snd }

/-- The full filter stage, in source order: include, exclude, min-quantity;
the first error aborts. -/
def applyFilters (cfg : FiltersCfg) (t : Table) : Except PErr Table :=
  match includeStep t cfg.include_financial_status with
  | .error e => .error e
  | .ok t1 =>
    match excludeStep t1 cfg.exclude_fulfillment_status with
    | .error e => .error e
    | .ok t2 =>
      match cfg.min_quantity with
      | none => .ok t2
      | some thr => minQuantityStep t2 thr

/-- The one per-row rewrite the filter stage can perform: when
`min_quantity` is configured and a quantity column resolves, that column is
replaced by its integer coercion; otherwise the identity. -/
def mqRowMap (mq : Option Int) (cols : List String) : List Cell → List Cell :=
  match mq, resolveQtyCol cols with
  | some _, some qc => fun r =>
    setCellAt cols r qc (some (toString (coerceQty (getCell cols r qc))))
  | _, _ => id

/-! ## Rename stage -/

/-- Insertion into the comprehension's dict: an existing key is overwritten
in place, a new key is appended. -/
def dictInsert (m : List (String × String)) (k v : String) : List (String × String) :=
  if m.any (fun p => p.1 == k) then
    m.map (fun p => if p.1 == k then (k, v) else p)
  else m ++ [(k, v)]

/-- The dict comprehension
`{normalize_column_name(k): v for k, v in ren.items() if normalize_column_name(k) in df.columns}`,
built in configuration iteration order. -/
def buildRenameDict (cols : List String) (ren : List (String × String)) :
    List (String × String) :=
  ren.foldl (fun m kv =>
    if cols.contains (normalize_column_name kv.1) then
      dictInsert m (normalize_column_name kv.1) kv.2
    else m) []

/-- Pandas `df.rename(columns=...)`: every column label in the mapping is replaced,
labels outside it are untouched; rows are unchanged. -/
def applyRename (t : Table) (ren : List (String × String)) : Table :=
  { cols := t.cols.map (fun c => ((buildRenameDict t.cols ren).lookup c).getD c),
    rows := t.rows }

/-! ## Output shaping (`columns_order`) -/

/-- Pandas `df[c] = ""` for a missing column: append it with `""` in every row. -/
def addEmptyCol (t : Table) (c : String) : Table :=
  { cols := t.cols ++ [c], rows := t.rows.map (fun r => r ++ [some ""]) }

/-- The ensure-exists loop: `for c in order: if c not in df.columns: df[c] = ""`. -/
def addMissingCols (t : Table) (order : List String) : Table :=
  order.foldl (fun acc c => if acc.cols.contains c then acc else addEmptyCol acc c) t

/-- Pandas `df = df[order]`: restrict and reorder the columns to the list. -/
def selectColumns (t : Table) (order : List String) : Table :=
  { cols := order, rows := t.rows.map (fun r => order.map (fun c => getCell t.cols r c)) }

/-- The column-ordering step: a falsy (empty) list leaves the table alone. -/
def applyColumnsOrder (t : Table) (order : List String) : Table :=
  if order.isEmpty then t else selectColumns (addMissingCols t order) order

/-- The names `addMissingCols` appends, in order (proof-side
characterization of the fold). -/
def newCols (cols : List String) : List String → List String
  | [] => []
  | c :: cs =>
    if cols.contains c then newCols cols cs
    else c :: newCols (cols ++ [c]) cs

/-! ## Validator -/

/-- Pandas `isna` on one cell. -/
def cellIsNa (c : Cell) : Bool := c.isNone

/-- Pandas `astype(str).str.strip() == ""` on one cell (NaN stringifies to
`"nan"`, which is not empty). -/
def cellStripEmpty (c : Cell) : Bool :=
  match c with
  | none => false
  | some s => (stripEnds isWS s.data).isEmpty

/-- Pandas `(pd.to_numeric(·, errors="coerce") <= 0)` on one cell: NaN (missing or
unparseable) compares false. -/
def cellNotPositive (c : Cell) : Bool :=
  match c.bind parseNumeric with
  | some q => decide (q ≤ 0)
  | none => false

/-- Check `validation.required`: the column must exist and have no NaN and no
whitespace-only value in any row. -/
def checkRequired (t : Table) : List String → Except PErr Unit
  | [] => .ok ()
  | c :: cs =>
    if !t.cols.contains c
        || t.rows.any (fun r => cellIsNa (getCell t.cols r c))
        || t.rows.any (fun r => cellStripEmpty (getCell t.cols r c)) then
      .error (.validationError c "missing_values")
    else checkRequired t cs

/-- Check `validation.positive_int`: only checked when the column exists. -/
def checkPositiveInt (t : Table) : List String → Except PErr Unit
  | [] => .ok ()
  | c :: cs =>
    if t.cols.contains c && t.rows.any (fun r => cellNotPositive (getCell t.cols r c)) then
      .error (.validationError c "not_positive")
    else checkPositiveInt t cs

/-- Check `validation.nonempty`: only checked when the column exists. -/
def checkNonempty (t : Table) : List String → Except PErr Unit
  | [] => .ok ()
  | c :: cs =>
    if t.cols.contains c && t.rows.any (fun r => cellStripEmpty (getCell t.cols r c)) then
      .error (.validationError c "empty_values")
    else checkNonempty t cs

/-! # Theorems

General list and character lemmas first, then per-stage lemmas, then the
claim theorems. -/

section ListLemmas

variable {α : Type} {p : α → Bool}

theorem head?_dropWhile_false {l : List α} {c : α}
    (h : (l.dropWhile p).head? = some c) : p c = false := by
  induction l with
  | nil => simp at h
  | cons a l ih =>
    by_cases hp : p a
    · rw [List.dropWhile_cons_of_pos hp] at h
      exact ih h
    · rw [List.dropWhile_cons_of_neg hp] at h
      simp only [List.head?_cons, Option.some.injEq] at h
      subst h
      exact Bool.eq_false_iff.mpr hp

theorem dropWhile_dropWhile (p : α → Bool) (l : List α) :
    (l.dropWhile p).dropWhile p = l.dropWhile p := by
  cases h : l.dropWhile p with
  | nil => rfl
  | cons a m =>
    have ha : p a = false := head?_dropWhile_false (by rw [h]; rfl)
    exact List.dropWhile_cons_of_neg (by simp [ha])

theorem dropWhile_eq_self_of_head (p : α → Bool) (l : List α)
    (h : ∀ c, l.head? = some c → p c = false) : l.dropWhile p = l := by
  cases l with
  | nil => rfl
  | cons a m => exact List.dropWhile_cons_of_neg (by simp [h a rfl])

theorem getLast?_dropWhile_ne (p : α → Bool) (l : List α)
    (h : l.dropWhile p ≠ []) : (l.dropWhile p).getLast? = l.getLast? := by
  induction l with
  | nil => simp at h
  | cons a l ih =>
    by_cases hp : p a
    · rw [List.dropWhile_cons_of_pos hp] at h ⊢
      rcases l with _ | ⟨b, m⟩
      · simp at h
      · rw [List.getLast?_cons_cons]
        exact ih h
    · rw [List.dropWhile_cons_of_neg hp]

theorem dropWhile_append_of_ne (p : α → Bool) (a b : List α)
    (h : a.dropWhile p ≠ []) : (a ++ b).dropWhile p = a.dropWhile p ++ b := by
  induction a with
  | nil => simp at h
  | cons x xs ih =>
    by_cases hp : p x
    · rw [List.dropWhile_cons_of_pos hp] at h
      simp only [List.cons_append, List.dropWhile_cons_of_pos hp]
      exact ih h
    · simp only [List.cons_append, List.dropWhile_cons_of_neg hp]

end ListLemmas

section StripEndsLemmas

variable {p : Char → Bool}

theorem stripEnds_sublist (p : Char → Bool) (l : List Char) :
    (stripEnds p l).Sublist l := by
  unfold stripEnds
  have h1 : (l.dropWhile p).Sublist l := List.dropWhile_sublist p
  have h2 : ((l.dropWhile p).reverse.dropWhile p).Sublist (l.dropWhile p).reverse :=
    List.dropWhile_sublist p
  have h3 := h2.reverse
  rw [List.reverse_reverse] at h3
  exact h3.trans h1

theorem stripEnds_idem (p : Char → Bool) (l : List Char) :
    stripEnds p (stripEnds p l) = stripEnds p l := by
  unfold stripEnds
  by_cases hv : (l.dropWhile p).reverse.dropWhile p = []
  · simp [hv]
  · have hd : ((l.dropWhile p).reverse.dropWhile p).reverse.dropWhile p
        = ((l.dropWhile p).reverse.dropWhile p).reverse := by
      apply dropWhile_eq_self_of_head
      intro c hc
      rw [List.head?_reverse, getLast?_dropWhile_ne p _ hv, List.getLast?_reverse] at hc
      exact head?_dropWhile_false hc
    rw [hd, List.reverse_reverse, dropWhile_dropWhile]

theorem stripEnds_map (f : Char → Char) (p : Char → Bool) (l : List Char) :
    stripEnds p (l.map f) = (stripEnds (fun c => p (f c)) l).map f := by
  unfold stripEnds
  rw [List.dropWhile_map, ← List.map_reverse, List.dropWhile_map, ← List.map_reverse]
  rfl

end StripEndsLemmas

section CharLemmas

theorem toNat_ofNat_of_lt {n : Nat} (h : n < 55296) : (Char.ofNat n).toNat = n := by
  have hv : n.isValidChar := Or.inl h
  simp [Char.ofNat, hv]
  rfl

theorem char_eq_iff_toNat {c d : Char} : c = d ↔ c.toNat = d.toNat := by
  constructor
  · intro h; rw [h]
  · intro h; exact Char.ext (UInt32.ext h)

theorem toLower_toNat (c : Char) :
    c.toLower.toNat = if 65 ≤ c.toNat ∧ c.toNat ≤ 90 then c.toNat + 32 else c.toNat := by
  show (if 65 ≤ c.toNat ∧ c.toNat ≤ 90 then Char.ofNat (c.toNat + 32) else c).toNat
    = if 65 ≤ c.toNat ∧ c.toNat ≤ 90 then c.toNat + 32 else c.toNat
  split_ifs with h1
  · exact toNat_ofNat_of_lt (by omega)
  · rfl

theorem isWordChar_toLower {c : Char} (h : isWordChar c = true) :
    isWordChar c.toLower = true := by
  simp only [isWordChar, decide_eq_true_eq] at h ⊢
  rw [toLower_toNat]
  split_ifs with h1 <;> omega

theorem toLower_beq_underscore (c : Char) : (c.toLower == '_') = (c == '_') := by
  rw [Bool.eq_iff_iff]
  simp only [beq_iff_eq]
  rw [char_eq_iff_toNat, char_eq_iff_toNat]
  have h95 : ('_').toNat = 95 := rfl
  rw [toLower_toNat, h95]
  split_ifs with h1 <;> omega

theorem toLower_toLower (c : Char) : c.toLower.toLower = c.toLower := by
  rw [char_eq_iff_toNat]
  simp only [toLower_toNat]
  split_ifs with h1 h2 <;> omega

end CharLemmas

section NormalizeLemmas

theorem collapseNonWordGo_mem (l : List Char) :
    ∀ (b : Bool), ∀ x ∈ collapseNonWordGo b l, isWordChar x = true := by
  induction l with
  | nil =>
    intro b x hx
    simp [collapseNonWordGo] at hx
  | cons c cs ih =>
    intro b x hx
    simp only [collapseNonWordGo] at hx
    by_cases hw : isWordChar c
    · rw [if_pos hw] at hx
      rcases List.mem_cons.mp hx with rfl | hx
      · exact hw
      · exact ih false x hx
    · rw [if_neg hw] at hx
      cases b with
      | true =>
        rw [if_pos rfl] at hx
        exact ih true x hx
      | false =>
        rw [if_neg (by simp)] at hx
        rcases List.mem_cons.mp hx with rfl | hx
        · decide
        · exact ih true x hx

theorem collapseNonWord_mem (l : List Char) :
    ∀ x ∈ collapseNonWord l, isWordChar x = true :=
  collapseNonWordGo_mem l false

theorem collapseNonWordGo_eq_self {l : List Char} (h : ∀ x ∈ l, isWordChar x = true) :
    ∀ b : Bool, collapseNonWordGo b l = l := by
  induction l with
  | nil => intro b; rfl
  | cons c cs ih =>
    intro b
    have hc := h c (List.mem_cons_self c cs)
    simp only [collapseNonWordGo, if_pos hc]
    rw [ih (fun x hx => h x (List.mem_cons_of_mem c hx)) false]

theorem collapseNonWord_eq_self {l : List Char} (h : ∀ x ∈ l, isWordChar x = true) :
    collapseNonWord l = l :=
  collapseNonWordGo_eq_self h false

theorem normalize_data_idem (l : List Char) :
    (stripEnds (fun c => c == '_')
      (collapseNonWord
        ((stripEnds (fun c => c == '_') (collapseNonWord l)).map Char.toLower))).map Char.toLower
    = (stripEnds (fun c => c == '_') (collapseNonWord l)).map Char.toLower := by
  have hword : ∀ x ∈ (stripEnds (fun c => c == '_') (collapseNonWord l)).map Char.toLower,
      isWordChar x = true := by
    intro x hx
    rcases List.mem_map.mp hx with ⟨y, hy, rfl⟩
    have hyg : y ∈ collapseNonWord l := (stripEnds_sublist _ _).subset hy
    exact isWordChar_toLower (collapseNonWord_mem l y hyg)
  rw [collapseNonWord_eq_self hword, stripEnds_map]
  have hp : (fun c : Char => Char.toLower c == '_') = (fun c : Char => c == '_') := by
    funext c
    exact toLower_beq_underscore c
  rw [hp, stripEnds_idem, List.map_map]
  have hll : Char.toLower ∘ Char.toLower = Char.toLower := by
    funext c
    exact toLower_toLower c
  rw [hll]

end NormalizeLemmas

/-- C7: column-name normalization is idempotent — for every string `x`,
`normalize_column_name (normalize_column_name x) = normalize_column_name x`,
where normalization replaces non-word runs by underscores, strips
underscores from the ends and lowercases. -/
theorem C7_normalize_idempotent (s : String) :
    normalize_column_name (normalize_column_name s) = normalize_column_name s := by
  show String.mk
      ((stripEnds (fun c => c == '_')
        (collapseNonWord
          ((stripEnds (fun c => c == '_') (collapseNonWord s.data)).map Char.toLower))).map
        Char.toLower)
    = String.mk ((stripEnds (fun c => c == '_') (collapseNonWord s.data)).map Char.toLower)
  exact congrArg String.mk (normalize_data_idem s.data)

/-- C8: `to_date` returns `""` (rather than failing) on unparseable or
invalid calendar dates, e.g. `"2024-02-30"`; `po_date_plus` maps an empty
date string to `""`, shifts a parseable `YYYY-MM-DD` date by the given
number of calendar days (`po_date_plus "2024-01-01" 5 = "2024-01-06"`),
and fails with `InvalidDate` on a non-empty unparseable date string. -/
theorem C8_date_helpers :
    to_date (.str "2024-02-30") = ""
    ∧ (∀ s, parseISODate s = none → to_date (.str s) = "")
    ∧ (∀ n : Int, po_date_plus "" n = .ok "")
    ∧ po_date_plus "2024-01-01" 5 = .ok "2024-01-06"
    ∧ (∀ s n, s ≠ "" → parseISODate s = none → po_date_plus s n = .error .invalidDate)
    ∧ (∀ s d n, parseISODate s = some d →
        po_date_plus s n = .ok (formatDate (addDays d n))) := by
  refine ⟨by decide, ?_, ?_, by decide, ?_, ?_⟩
  · intro s h
    simp [to_date, h]
  · intro n
    simp [po_date_plus]
  · intro s n hne h
    simp [po_date_plus, hne, h]
  · intro s d n h
    have hne : s ≠ "" := by
      intro he
      rw [he] at h
      simp [show parseISODate "" = none by decide] at h
    simp [po_date_plus, hne, h]

/-- Witness for C8 at concrete inputs, discharging each hypothesis. -/
theorem C8_date_helpers_witness :
    to_date (.str "never") = "" ∧ po_date_plus "nope" 3 = .error .invalidDate := by
  constructor
  · exact C8_date_helpers.2.1 "never" (by decide)
  · exact C8_date_helpers.2.2.2.2.1 "nope" 3 (by decide) (by decide)

section ConcatLemmas

theorem dropWhile_eq_self_of_all {α : Type} (p : α → Bool) (l : List α)
    (h : ∀ a ∈ l, p a = false) : l.dropWhile p = l := by
  cases l with
  | nil => rfl
  | cons a m => exact List.dropWhile_cons_of_neg (by simp [h a (List.mem_cons_self a m)])

theorem dropEndWhile_append_of_ne {p : Char → Bool} (x y : List Char)
    (hy : dropEndWhile p y ≠ []) :
    dropEndWhile p (x ++ y) = x ++ dropEndWhile p y := by
  unfold dropEndWhile at hy ⊢
  have hy' : y.reverse.dropWhile p ≠ [] := by
    intro h
    exact hy (by rw [h]; rfl)
  rw [List.reverse_append, dropWhile_append_of_ne p y.reverse x.reverse hy',
    List.reverse_append, List.reverse_reverse]

theorem dropEndWhile_snoc_pos {p : Char → Bool} {c : Char} (hc : p c = true) (x : List Char) :
    dropEndWhile p (x ++ [c]) = dropEndWhile p x := by
  unfold dropEndWhile
  rw [List.reverse_append]
  simp [List.dropWhile_cons_of_pos hc]

theorem dropEndWhile_eq_self_of_all {p : Char → Bool} {x : List Char}
    (h : ∀ a ∈ x, p a = false) : dropEndWhile p x = x := by
  unfold dropEndWhile
  rw [dropWhile_eq_self_of_all p x.reverse (fun a ha => h a (List.mem_reverse.mp ha)),
    List.reverse_reverse]

theorem stripEnds_cons_pos {p : Char → Bool} {c : Char} (hc : p c = true) (l : List Char) :
    stripEnds p (c :: l) = stripEnds p l := by
  unfold stripEnds
  rw [List.dropWhile_cons_of_pos hc]

theorem stripEnds_head_neg {p : Char → Bool} {c : Char} (hc : p c = false) (l : List Char) :
    stripEnds p (c :: l) = dropEndWhile p (c :: l) := by
  unfold stripEnds dropEndWhile
  rw [List.dropWhile_cons_of_neg (by simp [hc])]

theorem stripEnds_eq_self_of_all {p : Char → Bool} {x : List Char}
    (h : ∀ a ∈ x, p a = false) : stripEnds p x = x := by
  unfold stripEnds
  rw [dropWhile_eq_self_of_all p x h]
  exact dropEndWhile_eq_self_of_all h

theorem collapseWSGo_true_eq (cs : List Char) :
    collapseWSGo true cs = collapseWSGo false (cs.dropWhile isWS) := by
  induction cs with
  | nil => rfl
  | cons c cs ih =>
    cases hc : isWS c
    · rw [List.dropWhile_cons_of_neg (by simp [hc])]
      simp [collapseWSGo, hc]
    · rw [List.dropWhile_cons_of_pos hc]
      simp only [collapseWSGo, hc, if_true]
      exact ih

theorem collapseWS_cons_pos {c : Char} (hc : isWS c = true) (cs : List Char) :
    collapseWS (c :: cs) = ' ' :: collapseWS (cs.dropWhile isWS) := by
  show collapseWSGo false (c :: cs) = ' ' :: collapseWSGo false (cs.dropWhile isWS)
  simp only [collapseWSGo, hc, if_true]
  rw [collapseWSGo_true_eq]
  simp

theorem collapseWS_cons_neg {c : Char} (hc : isWS c = false) (cs : List Char) :
    collapseWS (c :: cs) = c :: collapseWS cs := by
  show collapseWSGo false (c :: cs) = c :: collapseWSGo false cs
  simp only [collapseWSGo, hc]
  simp

theorem collapseWS_word_append (w r : List Char) (hw : ∀ x ∈ w, isWS x = false) :
    collapseWS (w ++ r) = w ++ collapseWS r := by
  induction w with
  | nil => rfl
  | cons c cs ih =>
    simp only [List.cons_append]
    rw [collapseWS_cons_neg (hw c (List.mem_cons_self c cs)),
      ih (fun x hx => hw x (List.mem_cons_of_mem c hx))]

theorem wordsOf_nil : wordsOf [] = [] := by rw [wordsOf]

theorem wordsOf_cons_pos {c : Char} (hc : isWS c = true) (cs : List Char) :
    wordsOf (c :: cs) = wordsOf (cs.dropWhile isWS) := by
  rw [wordsOf, if_pos hc]

theorem wordsOf_cons_neg {c : Char} (hc : isWS c = false) (cs : List Char) :
    wordsOf (c :: cs) =
      (c :: cs.takeWhile (fun d => !isWS d)) :: wordsOf (cs.dropWhile (fun d => !isWS d)) := by
  rw [wordsOf, if_neg (by simp [hc])]

theorem wordsOf_dropWhile (l : List Char) : wordsOf (l.dropWhile isWS) = wordsOf l := by
  cases l with
  | nil => rfl
  | cons c cs =>
    cases hc : isWS c
    · rw [List.dropWhile_cons_of_neg (by simp [hc])]
    · rw [List.dropWhile_cons_of_pos hc, wordsOf_cons_pos hc]

theorem joinSp_cons_ne (s : List Char) {W : List (List Char)} (hW : W ≠ []) :
    joinSp (s :: W) = s ++ ' ' :: joinSp W := by
  cases W with
  | nil => exact absurd rfl hW
  | cons t ts => rfl

theorem joinSp_cons_head_ne (a : Char) (s : List Char) (W : List (List Char)) :
    joinSp ((a :: s) :: W) ≠ [] := by
  cases W <;> simp [joinSp]

theorem stripCollapse_bound (n : Nat) :
    ∀ l : List Char, l.length ≤ n →
      stripEnds isWS (collapseWS l) = joinSp (wordsOf l) := by
  induction n with
  | zero =>
    intro l hl
    have hnil : l = [] := List.length_eq_zero.mp (Nat.le_zero.mp hl)
    subst hnil
    rw [wordsOf_nil]
    rfl
  | succ n ih =>
    intro l hl
    match l with
    | [] =>
      rw [wordsOf_nil]
      rfl
    | c :: cs =>
      simp only [List.length_cons] at hl
      cases hws : isWS c
      case true =>
        rw [collapseWS_cons_pos hws, stripEnds_cons_pos (show isWS ' ' = true by decide),
          wordsOf_cons_pos hws]
        exact ih (cs.dropWhile isWS) (by
          have := (List.dropWhile_sublist (l := cs) isWS).length_le
          omega)
      case false =>
        rw [collapseWS_cons_neg hws, wordsOf_cons_neg hws]
        have hsplit := List.takeWhile_append_dropWhile (fun d => !isWS d) cs
        have hwall : ∀ a ∈ cs.takeWhile (fun d => !isWS d), isWS a = false := by
          intro a ha
          have := List.mem_takeWhile_imp ha
          simpa using this
        rw [show collapseWS cs
            = collapseWS (cs.takeWhile (fun d => !isWS d) ++ cs.dropWhile (fun d => !isWS d))
            from by rw [hsplit]]
        rw [collapseWS_word_append _ _ hwall]
        cases hrr : cs.dropWhile (fun d => !isWS d) with
        | nil =>
          rw [show collapseWS [] = [] from rfl, List.append_nil, wordsOf_nil]
          rw [stripEnds_eq_self_of_all (by
            intro a ha
            rcases List.mem_cons.mp ha with rfl | ha
            · exact hws
            · exact hwall a ha)]
          rfl
        | cons d r2 =>
          have hd : isWS d = true := by
            have hh : ((cs.dropWhile (fun d => !isWS d)).head? = some d) := by
              rw [hrr]; rfl
            have := head?_dropWhile_false hh
            simpa using this
          rw [collapseWS_cons_pos hd, wordsOf_cons_pos hd]
          have hlen2 : (r2.dropWhile isWS).length ≤ n := by
            have h1 := (List.dropWhile_sublist (l := r2) isWS).length_le
            have h2 := (List.dropWhile_sublist (l := cs) (fun d => !isWS d)).length_le
            rw [hrr] at h2
            simp only [List.length_cons] at h2
            omega
          have IH := ih (r2.dropWhile isWS) hlen2
          cases hr2 : r2.dropWhile isWS with
          | nil =>
            rw [show collapseWS [] = [] from rfl, wordsOf_nil]
            rw [stripEnds_head_neg hws, ← List.cons_append, dropEndWhile_snoc_pos (show isWS ' ' = true by decide)]
            rw [dropEndWhile_eq_self_of_all (by
              intro a ha
              rcases List.mem_cons.mp ha with rfl | ha
              · exact hws
              · exact hwall a ha)]
            rfl
          | cons e r3 =>
            have he : isWS e = false := by
              have hh : ((r2.dropWhile isWS).head? = some e) := by
                rw [hr2]; rfl
              exact head?_dropWhile_false hh
            rw [hr2] at IH
            have hJ : dropEndWhile isWS (collapseWS (e :: r3)) = joinSp (wordsOf (e :: r3)) := by
              rw [← IH, collapseWS_cons_neg he, stripEnds_head_neg he]
            have hJne : joinSp (wordsOf (e :: r3)) ≠ [] := by
              rw [wordsOf_cons_neg he]
              exact joinSp_cons_head_ne e _ _
            have hWne : wordsOf (e :: r3) ≠ [] := by
              rw [wordsOf_cons_neg he]
              simp
            rw [stripEnds_head_neg hws]
            rw [show (c :: (cs.takeWhile (fun d => !isWS d) ++ ' ' :: collapseWS (e :: r3)))
                = (c :: (cs.takeWhile (fun d => !isWS d) ++ [' '])) ++ collapseWS (e :: r3)
              from by simp]
            rw [dropEndWhile_append_of_ne _ _ (by
              rw [collapseWS_cons_neg he, ← stripEnds_head_neg he, ← collapseWS_cons_neg he, IH]
              exact hJne)]
            rw [show dropEndWhile isWS (collapseWS (e :: r3)) = joinSp (wordsOf (e :: r3)) from hJ]
            rw [joinSp_cons_ne _ hWne]
            simp

theorem wordsOf_append_space (n : Nat) :
    ∀ x y : List Char, x.length ≤ n →
      wordsOf (x ++ ' ' :: y) = wordsOf x ++ wordsOf y := by
  induction n with
  | zero =>
    intro x y hx
    have hnil : x = [] := List.length_eq_zero.mp (Nat.le_zero.mp hx)
    subst hnil
    rw [List.nil_append, wordsOf_nil, List.nil_append,
      wordsOf_cons_pos (by decide), wordsOf_dropWhile]
  | succ n ih =>
    intro x y hx
    match x with
    | [] =>
      rw [List.nil_append, wordsOf_nil, List.nil_append,
        wordsOf_cons_pos (by decide), wordsOf_dropWhile]
    | c :: cs =>
      simp only [List.length_cons] at hx
      cases hc : isWS c
      case false =>
        rw [List.cons_append, wordsOf_cons_neg hc, wordsOf_cons_neg hc]
        cases hrr : cs.dropWhile (fun d => !isWS d) with
        | nil =>
          have hall : ∀ a ∈ cs, (fun d => !isWS d) a = true :=
            List.dropWhile_eq_nil_iff.mp hrr
          have htake : cs.takeWhile (fun d => !isWS d) = cs :=
            List.takeWhile_eq_self_iff.mpr hall
          rw [List.takeWhile_append_of_pos hall, List.dropWhile_append_of_pos hall,
            List.takeWhile_cons_of_neg (by decide), List.dropWhile_cons_of_neg (by decide),
            List.append_nil, htake, wordsOf_nil,
            wordsOf_cons_pos (by decide), wordsOf_dropWhile]
          rfl
        | cons d m =>
          have hd : isWS d = true := by
            have hh : ((cs.dropWhile (fun d => !isWS d)).head? = some d) := by
              rw [hrr]; rfl
            have := head?_dropWhile_false hh
            simpa using this
          have hwall : ∀ a ∈ cs.takeWhile (fun d => !isWS d), (fun d => !isWS d) a = true :=
            fun a ha => List.mem_takeWhile_imp (p := fun d => !isWS d) ha
          have hsplit := List.takeWhile_append_dropWhile (fun d => !isWS d) cs
          rw [hrr] at hsplit
          have hmlen : m.length ≤ n := by
            have h2 := (List.dropWhile_sublist (l := cs) (fun d => !isWS d)).length_le
            rw [hrr] at h2
            simp only [List.length_cons] at h2
            omega
          calc (c :: (cs ++ ' ' :: y).takeWhile (fun d => !isWS d))
                :: wordsOf ((cs ++ ' ' :: y).dropWhile (fun d => !isWS d))
              = (c :: (cs.takeWhile (fun d => !isWS d) ++ (d :: m) ++ ' ' :: y).takeWhile (fun d => !isWS d))
                :: wordsOf ((cs.takeWhile (fun d => !isWS d) ++ (d :: m) ++ ' ' :: y).dropWhile (fun d => !isWS d)) := by
                rw [show cs.takeWhile (fun d => !isWS d) ++ (d :: m) ++ ' ' :: y
                    = cs ++ ' ' :: y from by rw [hsplit]]
            _ = (c :: cs.takeWhile (fun d => !isWS d))
                :: wordsOf (d :: (m ++ ' ' :: y)) := by
                rw [List.append_assoc, List.takeWhile_append_of_pos hwall,
                  List.dropWhile_append_of_pos hwall, List.cons_append,
                  List.takeWhile_cons_of_neg (by simp [hd]),
                  List.dropWhile_cons_of_neg (by simp [hd]), List.append_nil]
            _ = (c :: cs.takeWhile (fun d => !isWS d))
                :: (wordsOf m ++ wordsOf y) := by
                rw [wordsOf_cons_pos hd, wordsOf_dropWhile, ih m y hmlen]
            _ = ((c :: cs.takeWhile (fun d => !isWS d)) :: wordsOf (d :: m)) ++ wordsOf y := by
                rw [wordsOf_cons_pos hd, wordsOf_dropWhile]
                rfl
      case true =>
        rw [List.cons_append, wordsOf_cons_pos hc, wordsOf_cons_pos hc]
        cases hD : cs.dropWhile isWS with
        | nil =>
          have hall : ∀ a ∈ cs, isWS a = true := List.dropWhile_eq_nil_iff.mp hD
          rw [List.dropWhile_append_of_pos hall, List.dropWhile_cons_of_pos (by decide),
            wordsOf_dropWhile, wordsOf_nil, List.nil_append]
        | cons d m =>
          have hstep : (cs ++ ' ' :: y).dropWhile isWS = (d :: m) ++ ' ' :: y := by
            rw [List.dropWhile_append, hD]
            simp
          have hmlen : (d :: m).length ≤ n := by
            have h2 := (List.dropWhile_sublist (l := cs) isWS).length_le
            rw [hD] at h2
            simp only [List.length_cons] at h2 ⊢
            omega
          rw [hstep, ih (d :: m) y hmlen]

theorem wordsOf_joinSp (ss : List (List Char)) :
    wordsOf (joinSp ss) = ss.flatMap wordsOf := by
  induction ss with
  | nil =>
    rw [show joinSp [] = [] from rfl, wordsOf_nil]
    rfl
  | cons s ss ih =>
    cases ss with
    | nil =>
      rw [show joinSp [s] = s from rfl]
      simp [List.flatMap]
    | cons t ts =>
      rw [show joinSp (s :: t :: ts) = s ++ ' ' :: joinSp (t :: ts) from rfl,
        wordsOf_append_space s.length s (joinSp (t :: ts)) (le_refl _), ih]
      simp [List.flatMap]

theorem stripEnds_collapseWS (l : List Char) :
    stripEnds isWS (collapseWS l) = joinSp (wordsOf l) :=
  stripCollapse_bound l.length l (le_refl _)

end ConcatLemmas

/-- C9: `concat` joins exactly the parts that are non-empty and not the
string `"nan"`, separated by single spaces with internal whitespace runs
collapsed and the ends trimmed — stated as: the result is the single-space
join of the whitespace-delimited words of the kept parts, in order; in
particular `concat "Blue" "" "M" = "Blue M"` and `concat` of a lone missing
numeric (NaN) value is `""`. -/
theorem C9_concat_join :
    (∀ parts : List PyVal,
      concat parts =
        String.mk (joinSp
          ((((parts.map concatPartStr).filter keepPart).map String.data).flatMap wordsOf)))
    ∧ concat [.str "Blue", .str "", .str "M"] = "Blue M"
    ∧ concat [.nan] = "" := by
  refine ⟨?_, by decide, by decide⟩
  intro parts
  show String.mk (stripEnds isWS (collapseWS (joinSp
      (((parts.map concatPartStr).filter keepPart).map String.data)))) = _
  rw [stripEnds_collapseWS, wordsOf_joinSp]

section EvaluatorLemmas

theorem lookupName_none_iff (cols : List String) (row : List Cell) (x : String) :
    lookupName cols row x = none ↔ ¬ x ∈ evalEnvNames cols := by
  unfold lookupName evalEnvNames
  split_ifs with h1 h2 h3 h4 h5 h6 <;>
    simp_all [List.mem_append, beq_iff_eq, List.elem_iff]

mutual

theorem evalExpr_unknown_ident (cols : List String) (row : List Cell) :
    ∀ (e : Expr) (x : String), x ∈ identsOf e → lookupName cols row x = none →
      ∀ v, ¬ evalExpr cols row e = .ok v
  | .lit v0, x, hx, hnone, v => by
    simp [identsOf] at hx
  | .ident y, x, hx, hnone, v => by
    simp only [identsOf, List.mem_singleton] at hx
    subst hx
    simp [evalExpr, hnone]
  | .attr e a, x, hx, hnone, v => by
    simp only [identsOf] at hx
    intro hok
    simp only [evalExpr] at hok
    cases he : evalExpr cols row e with
    | error msg => rw [he] at hok; simp at hok
    | ok w => exact evalExpr_unknown_ident cols row e x hx hnone w he
  | .call f args, x, hx, hnone, v => by
    intro hok
    simp only [evalExpr] at hok
    cases hf : evalExpr cols row f with
    | error m => rw [hf] at hok; simp at hok
    | ok fv =>
      rw [hf] at hok
      cases ha : evalArgs cols row args with
      | error m => rw [ha] at hok; simp at hok
      | ok avs =>
        simp only [identsOf, List.mem_append] at hx
        rcases hx with hx | hx
        · exact evalExpr_unknown_ident cols row f x hx hnone fv hf
        · exact evalArgs_unknown_ident cols row args x hx hnone avs ha

theorem evalArgs_unknown_ident (cols : List String) (row : List Cell) :
    ∀ (es : List Expr) (x : String), x ∈ identsOfList es → lookupName cols row x = none →
      ∀ vs, ¬ evalArgs cols row es = .ok vs
  | [], x, hx, hnone, vs => by simp [identsOfList] at hx
  | e :: es, x, hx, hnone, vs => by
    intro hok
    simp only [evalArgs] at hok
    cases he : evalExpr cols row e with
    | error m => rw [he] at hok; simp at hok
    | ok w =>
      rw [he] at hok
      cases hes : evalArgs cols row es with
      | error m => rw [hes] at hok; simp at hok
      | ok ws =>
        simp only [identsOfList, List.mem_append] at hx
        rcases hx with hx | hx
        · exact evalExpr_unknown_ident cols row e x hx hnone w he
        · exact evalArgs_unknown_ident cols row es x hx hnone ws hes

end

end EvaluatorLemmas

/-- C1 counterexample: the evaluation environment the code builds is larger
than the claim's set {to_date, po_date_plus, concat, row columns} — the
identifier `pd` (absent from that set and from the row's columns) resolves
to the pandas module instead of failing, attribute access on it succeeds,
and `apply_computed` returns normally for an expression consisting of that
identifier; so the containment claim is false as stated. -/
theorem C1_counterexample :
    ¬ "pd" ∈ claimAllowed []
    ∧ evalExpr [] [] (.ident "pd") = .ok .pandasModule
    ∧ evalExpr [] [] (.attr (.ident "pd") "read_csv") = .ok (.pandasAttr "read_csv")
    ∧ apply_computed ⟨[], [[]]⟩ [("x", .ident "pd")]
        = .ok ⟨["x"], [[some "<module pandas>"]]⟩ :=
  ⟨by decide, by decide, by decide, by decide⟩

/-- C1 (amended): the names resolvable in the evaluation environment are,
besides the helpers and the row's columns, the pandas module bound as `pd`
in the locals and `__builtins__` — the key of the globals dict `eval`
receives, which resolves to the empty dict; an expression referencing an
identifier outside this extended set fails (`NameError`) for every row,
but the sandbox is not airtight — attribute access is unrestricted, and
calling an attribute of the exposed `pd` module executes host
functionality (e.g. pandas file I/O) and yields a host object. -/
theorem C1_extended_environment :
    (∀ (cols : List String) (row : List Cell) (e : Expr) (x : String),
      x ∈ identsOf e → ¬ x ∈ evalEnvNames cols →
      ∀ v, ¬ evalExpr cols row e = .ok v)
    ∧ evalExpr [] [] (.ident "__builtins__") = .ok .emptyDict
    ∧ evalExpr [] [] (.call (.attr (.ident "pd") "read_csv") [.lit (.str "orders.csv")])
        = .ok .hostValue := by
  refine ⟨?_, by decide, by decide⟩
  intro cols row e x hx hmem v
  exact evalExpr_unknown_ident cols row e x hx
    ((lookupName_none_iff cols row x).mpr hmem) v

/-- Witness for C1's amended theorem at a concrete unknown identifier. -/
theorem C1_extended_environment_witness :
    ¬ evalExpr [] [] (.ident "os") = .ok (.str "boom") :=
  C1_extended_environment.1 [] [] (.ident "os") "os" (by decide) (by decide) (.str "boom")

section ValidatorLemmas

theorem contains_iff_mem {l : List String} {c : String} : l.contains c = true ↔ c ∈ l :=
  List.elem_iff

theorem not_mem_of_contains_false {l : List String} {c : String}
    (h : l.contains c = false) : ¬ c ∈ l := by
  intro hm
  have ht := contains_iff_mem.mpr hm
  rw [h] at ht
  exact Bool.false_ne_true ht

theorem cellNotPositive_iff (c : Cell) :
    cellNotPositive c = true ↔ ∃ q : Rat, c.bind parseNumeric = some q ∧ q ≤ 0 := by
  unfold cellNotPositive
  cases h : c.bind parseNumeric with
  | none => simp
  | some q => simp [h]

theorem checkPositiveInt_ok_iff (t : Table) (cs : List String) :
    checkPositiveInt t cs = .ok () ↔
      ∀ c ∈ cs, t.cols.contains c = true →
        ∀ r ∈ t.rows, ∀ q : Rat,
          (getCell t.cols r c).bind parseNumeric = some q → ¬ q ≤ 0 := by
  induction cs with
  | nil => simp [checkPositiveInt]
  | cons c cs ih =>
    rw [checkPositiveInt]
    split_ifs with h
    · simp only [Bool.and_eq_true, List.any_eq_true] at h
      obtain ⟨hc, r, hr, hnp⟩ := h
      rw [cellNotPositive_iff] at hnp
      obtain ⟨q, hq, hle⟩ := hnp
      constructor
      · intro habs
        exact absurd habs (by simp)
      · intro hall
        exact absurd hle (hall c (List.mem_cons_self c cs) hc r hr q hq)
    · rw [ih]
      constructor
      · intro hall c' hc' hcont r hr q hq hle
        rcases List.mem_cons.mp hc' with rfl | hc'
        · apply h
          simp only [Bool.and_eq_true, List.any_eq_true]
          exact ⟨hcont, r, hr, (cellNotPositive_iff _).mpr ⟨q, hq, hle⟩⟩
        · exact hall c' hc' hcont r hr q hq hle
      · intro hall c' hc' hcont r hr q hq hle
        exact hall c' (List.mem_cons_of_mem c hc') hcont r hr q hq hle

theorem checkPositiveInt_error_form (t : Table) (cs : List String) (e : PErr) :
    checkPositiveInt t cs = .error e →
      ∃ c ∈ cs, e = .validationError c "not_positive" ∧ t.cols.contains c = true
        ∧ ∃ r ∈ t.rows, ∃ q : Rat,
            (getCell t.cols r c).bind parseNumeric = some q ∧ q ≤ 0 := by
  induction cs with
  | nil => intro h; simp [checkPositiveInt] at h
  | cons c cs ih =>
    rw [checkPositiveInt]
    split_ifs with h
    · intro he
      rw [Except.error.injEq] at he
      subst he
      simp only [Bool.and_eq_true, List.any_eq_true] at h
      obtain ⟨hc, r, hr, hnp⟩ := h
      rw [cellNotPositive_iff] at hnp
      obtain ⟨q, hq, hle⟩ := hnp
      exact ⟨c, List.mem_cons_self c cs, rfl, hc, r, hr, q, hq, hle⟩
    · intro he
      obtain ⟨c', hc', rest⟩ := ih he
      exact ⟨c', List.mem_cons_of_mem c hc', rest⟩

end ValidatorLemmas

/-- C2 counterexample: a `positive_int` column whose value is the
non-numeric string `"abc"` (and a column containing a missing value)
passes the check — `to_numeric(errors="coerce")` turns both into NaN,
whose comparison with 0 is false — although the claim requires a
`ValidationError(column, "not_positive")`. -/
theorem C2_counterexample :
    checkPositiveInt ⟨["q"], [[some "abc"]]⟩ ["q"] = .ok ()
    ∧ parseNumeric "abc" = none
    ∧ checkPositiveInt ⟨["q"], [[none]]⟩ ["q"] = .ok ()
    ∧ checkPositiveInt ⟨["q"], [[some "0"]]⟩ ["q"]
        = .error (.validationError "q" "not_positive") :=
  ⟨by decide, by decide, by decide, by decide⟩

/-- C2 (amended): `positive_int` fails with
`ValidationError(column, "not_positive")` exactly when some listed column
present in the table has a row whose value, parsed as a number, is ≤ 0;
non-numeric and missing values coerce to NaN, which compares false against
0, so they pass the check rather than failing it. -/
theorem C2_positive_int :
    (∀ (t : Table) (cs : List String),
      checkPositiveInt t cs = .ok () ↔
        ∀ c ∈ cs, t.cols.contains c = true →
          ∀ r ∈ t.rows, ∀ q : Rat,
            (getCell t.cols r c).bind parseNumeric = some q → ¬ q ≤ 0)
    ∧ (∀ (t : Table) (cs : List String) (e : PErr),
        checkPositiveInt t cs = .error e →
          ∃ c ∈ cs, e = .validationError c "not_positive" ∧ t.cols.contains c = true
            ∧ ∃ r ∈ t.rows, ∃ q : Rat,
                (getCell t.cols r c).bind parseNumeric = some q ∧ q ≤ 0) :=
  ⟨checkPositiveInt_ok_iff, checkPositiveInt_error_form⟩

/-- Witness for C2's amended theorem: both directions applied at concrete
tables. -/
theorem C2_positive_int_witness :
    checkPositiveInt ⟨["q"], [[some "7"]]⟩ ["q"] = .ok ()
    ∧ ∃ c ∈ ["q"], PErr.validationError "q" "not_positive"
        = .validationError c "not_positive" := by
  constructor
  · exact (C2_positive_int.1 ⟨["q"], [[some "7"]]⟩ ["q"]).mpr (by decide)
  · obtain ⟨c, hc, he, -⟩ :=
      C2_positive_int.2 ⟨["q"], [[some "-3"]]⟩ ["q"]
        (PErr.validationError "q" "not_positive") (by decide)
    exact ⟨c, hc, he⟩

/-- C10: when a column listed in `positive_int` or `nonempty` is absent
from the table, that check is skipped (passes vacuously), while `required`
fails with `ValidationError(column, "missing_values")` as soon as its
column is absent. -/
theorem C10_absent_column_checks (t : Table) (c : String) (cs : List String)
    (h : t.cols.contains c = false) :
    checkPositiveInt t (c :: cs) = checkPositiveInt t cs
    ∧ checkNonempty t (c :: cs) = checkNonempty t cs
    ∧ checkRequired t (c :: cs) = .error (.validationError c "missing_values") := by
  have hmem : ¬ c ∈ t.cols := by
    intro hm
    have hc : t.cols.contains c = true :=
      List.contains_iff_exists_mem_beq.mpr ⟨c, hm, by simp⟩
    rw [h] at hc
    exact Bool.false_ne_true hc
  refine ⟨?_, ?_, ?_⟩
  · rw [checkPositiveInt]
    simp [h, hmem]
  · rw [checkNonempty]
    simp [h, hmem]
  · rw [checkRequired]
    simp [h, hmem]

/-- Witness for C10 on a concrete table and absent column. -/
theorem C10_absent_column_checks_witness :
    checkPositiveInt ⟨["a"], [[some "1"]]⟩ ["b"] = checkPositiveInt ⟨["a"], [[some "1"]]⟩ []
    ∧ checkNonempty ⟨["a"], [[some "1"]]⟩ ["b"] = checkNonempty ⟨["a"], [[some "1"]]⟩ []
    ∧ checkRequired ⟨["a"], [[some "1"]]⟩ ["b"]
        = .error (.validationError "b" "missing_values") :=
  C10_absent_column_checks ⟨["a"], [[some "1"]]⟩ "b" [] (by decide)

/-- C5: the quantity column resolves to `lineitem_quantity` first, then
`qty`; with neither present `min_quantity` fails with `MissingColumn`; the
coercion maps missing and non-numeric values to 0; and the surviving rows
are exactly those whose coerced quantity is ≥ the threshold (each with the
quantity column overwritten by the coerced integer), so a row exactly at
the threshold is retained and one below it is dropped. -/
theorem C5_min_quantity (t : Table) (thr : Int) :
    (t.cols.contains "lineitem_quantity" = true →
      resolveQtyCol t.cols = some "lineitem_quantity")
    ∧ (t.cols.contains "lineitem_quantity" = false → t.cols.contains "qty" = true →
      resolveQtyCol t.cols = some "qty")
    ∧ (t.cols.contains "lineitem_quantity" = false → t.cols.contains "qty" = false →
      minQuantityStep t thr = .error (.missingColumn "min_quantity"))
    ∧ (∀ qc, resolveQtyCol t.cols = some qc →
        minQuantityStep t thr = .ok
          { cols := t.cols,
            rows := (t.rows.filter
                (fun r => decide (thr ≤ coerceQty (getCell t.cols r qc)))).map
              (fun r => setCellAt t.cols r qc
                (some (toString (coerceQty (getCell t.cols r qc))))) })
    ∧ coerceQty none = 0
    ∧ (∀ s, parseNumeric s = none → coerceQty (some s) = 0) := by
  refine ⟨?_, ?_, ?_, ?_, by decide, ?_⟩
  · intro h
    simp [resolveQtyCol, contains_iff_mem.mp h]
  · intro h1 h2
    simp [resolveQtyCol, not_mem_of_contains_false h1, contains_iff_mem.mp h2]
  · intro h1 h2
    simp [minQuantityStep, resolveQtyCol,
      not_mem_of_contains_false h1, not_mem_of_contains_false h2]
  · intro qc hqc
    simp only [minQuantityStep, hqc]
    rw [List.filter_map, List.map_map]
    rfl
  · intro s h
    show ratTrunc (((some s).bind parseNumeric).getD 0) = 0
    rw [Option.bind, h]
    decide

/-- Witness for C5 on a concrete table, threshold boundary included. -/
theorem C5_min_quantity_witness :
    minQuantityStep ⟨["qty"], [[some "3"], [some "2"], [some "x"]]⟩ 3
      = .ok ⟨["qty"], [[some "3"]]⟩ := by
  have h := (C5_min_quantity ⟨["qty"], [[some "3"], [some "2"], [some "x"]]⟩ 3).2.2.2.1
    "qty" (by decide)
  rw [h]
  decide

section FilterLemmas

theorem includeStep_ok {t t1 : Table} {inc : List String}
    (h : includeStep t inc = .ok t1) :
    t1.cols = t.cols ∧ t1.rows.Sublist t.rows := by
  unfold includeStep at h
  split_ifs at h with h1 h2
  · have := Except.ok.inj h
    subst this
    exact ⟨rfl, List.Sublist.refl _⟩
  · have := Except.ok.inj h
    subst this
    exact ⟨rfl, List.filter_sublist _⟩

theorem excludeStep_ok {t t1 : Table} {exc : List String}
    (h : excludeStep t exc = .ok t1) :
    t1.cols = t.cols ∧ t1.rows.Sublist t.rows := by
  unfold excludeStep at h
  split_ifs at h with h1 h2
  · have := Except.ok.inj h
    subst this
    exact ⟨rfl, List.Sublist.refl _⟩
  · have := Except.ok.inj h
    subst this
    exact ⟨rfl, List.filter_sublist _⟩

theorem minQuantityStep_ok {t t2 : Table} {thr : Int}
    (h : minQuantityStep t thr = .ok t2) :
    t2.cols = t.cols ∧ t2.rows.Sublist (t.rows.map (mqRowMap (some thr) t.cols)) := by
  unfold minQuantityStep at h
  cases hq : resolveQtyCol t.cols with
  | none => rw [hq] at h; simp at h
  | some qc =>
    rw [hq] at h
    have := Except.ok.inj h
    subst this
    refine ⟨rfl, ?_⟩
    rw [List.filter_map, List.map_map]
    have hmap : (Prod.snd ∘ fun r =>
        (coerceQty (getCell t.cols r qc),
         setCellAt t.cols r qc (some (toString (coerceQty (getCell t.cols r qc))))))
        = mqRowMap (some thr) t.cols := by
      funext r
      simp [mqRowMap, hq]
    rw [hmap]
    exact (List.filter_sublist _).map _

end FilterLemmas

/-- C3 counterexample: with `min_quantity: 0` configured, a row whose
quantity cell is the non-numeric text `"abc"` survives the filter stage but
is not cell-for-cell identical to its source row — the quantity column has
been overwritten with the coerced integer `0`. -/
theorem C3_counterexample :
    applyFilters ⟨[], [], some 0⟩ ⟨["lineitem_quantity"], [[some "abc"]]⟩
      = .ok ⟨["lineitem_quantity"], [[some "0"]]⟩
    ∧ (some "0" : Cell) ≠ some "abc" :=
  ⟨by decide, by decide⟩

/-- C3 (amended): the filter stage removes rows, preserving the relative
order of the survivors and the column list, and leaves every cell unchanged
except that, when `min_quantity` is configured and a quantity column
resolves, that column is overwritten in each surviving row by the string of
its coerced integer quantity; with no `min_quantity` configured the
surviving rows are cell-for-cell identical to source rows. -/
theorem C3_filter_frame (cfg : FiltersCfg) (t t' : Table)
    (h : applyFilters cfg t = .ok t') :
    t'.cols = t.cols
    ∧ t'.rows.Sublist (t.rows.map (mqRowMap cfg.min_quantity t.cols))
    ∧ (cfg.min_quantity = none → t'.rows.Sublist t.rows) := by
  unfold applyFilters at h
  cases h1 : includeStep t cfg.include_financial_status with
  | error e => rw [h1] at h; simp at h
  | ok t1 =>
    rw [h1] at h
    dsimp only at h
    obtain ⟨hc1, hs1⟩ := includeStep_ok h1
    cases h2 : excludeStep t1 cfg.exclude_fulfillment_status with
    | error e => rw [h2] at h; simp at h
    | ok t2 =>
      rw [h2] at h
      dsimp only at h
      obtain ⟨hc2, hs2⟩ := excludeStep_ok h2
      cases hmq : cfg.min_quantity with
      | none =>
        rw [hmq] at h
        dsimp only at h
        have := Except.ok.inj h
        subst this
        refine ⟨hc2.trans hc1, ?_, fun _ => hs2.trans hs1⟩
        have : mqRowMap none t.cols = id := by
          funext r
          simp [mqRowMap]
        rw [this, List.map_id]
        exact hs2.trans hs1
      | some thr =>
        rw [hmq] at h
        dsimp only at h
        obtain ⟨hc3, hs3⟩ := minQuantityStep_ok h
        rw [hc2, hc1] at hc3 hs3
        refine ⟨hc3, ?_, fun habs => ?_⟩
        · exact hs3.trans ((hs2.trans hs1).map _)
        · exact Option.noConfusion habs

/-- Witness for C3's amended theorem at a concrete run of the filter
stage. -/
theorem C3_filter_frame_witness :
    ([[ (some "0" : Cell) ]] : List (List Cell)).Sublist
      ([[some "abc"]].map (mqRowMap (some 0) ["lineitem_quantity"])) :=
  (C3_filter_frame ⟨[], [], some 0⟩ ⟨["lineitem_quantity"], [[some "abc"]]⟩
    ⟨["lineitem_quantity"], [[some "0"]]⟩ (by decide)).2.1

section RenameLemmas

theorem getLast?_cons_or {α : Type} (a : α) (l : List α) :
    (a :: l).getLast? = (l.getLast?).or (some a) := by
  cases l with
  | nil => rfl
  | cons b m =>
    rw [List.getLast?_cons_cons, List.getLast?_eq_getLast (b :: m) (by simp)]
    rfl

theorem lookup_cons_pos {a b v2 : String} (l : List (String × String))
    (h : (a == b) = true) : List.lookup a ((b, v2) :: l) = some v2 := by
  rw [List.lookup_cons, h]

theorem lookup_cons_neg {a b v2 : String} (l : List (String × String))
    (h : (a == b) = false) : List.lookup a ((b, v2) :: l) = List.lookup a l := by
  rw [List.lookup_cons, h]

theorem lookup_map_update (m : List (String × String)) (k v k' : String) :
    (m.map (fun p => if p.1 == k then (k, v) else p)).lookup k'
    = if k' = k then (if m.any (fun p => p.1 == k) then some v else none)
      else m.lookup k' := by
  induction m with
  | nil => simp [List.lookup]
  | cons p m ih =>
    obtain ⟨p1, p2⟩ := p
    rw [List.map_cons]
    by_cases hp : (p1 == k) = true
    · rw [show (if ((p1, p2).1 == k) = true then (k, v) else (p1, p2)) = (k, v) from
        if_pos hp]
      by_cases hk : k' = k
      · subst hk
        rw [lookup_cons_pos _ (by simp), if_pos rfl,
          if_pos (show (((p1, p2) :: m).any fun p => p.1 == k') = true by simp [hp])]
      · rw [lookup_cons_neg _ (by simp [hk]), ih, if_neg hk, if_neg hk]
        have hp1 : p1 = k := by simpa using hp
        rw [lookup_cons_neg _ (by simp [hp1, hk])]
    · have hpf : (p1 == k) = false := by simpa using hp
      rw [show (if ((p1, p2).1 == k) = true then (k, v) else (p1, p2)) = (p1, p2) from
        if_neg hp]
      by_cases hk : k' = k
      · subst hk
        have hne : ¬ p1 = k' := by simpa using hp
        have hkp : (k' == p1) = false := by
          simp [show ¬ k' = p1 from fun h => hne h.symm]
        rw [lookup_cons_neg _ hkp, ih, if_pos rfl, if_pos rfl]
        have hany : (((p1, p2) :: m).any fun p => p.1 == k')
            = (m.any fun p => p.1 == k') := by
          simp [List.any_cons, hpf]
        rw [hany]
      · cases hm : (k' == p1) with
        | true =>
          rw [lookup_cons_pos _ hm, if_neg hk, lookup_cons_pos _ hm]
        | false =>
          rw [lookup_cons_neg _ hm, ih, if_neg hk, if_neg hk, lookup_cons_neg _ hm]

theorem any_key_of_lookup_some {m : List (String × String)} {k w : String}
    (hl : m.lookup k = some w) : (m.any fun p => p.1 == k) = true := by
  induction m with
  | nil => simp [List.lookup] at hl
  | cons p m ihm =>
    obtain ⟨p1, p2⟩ := p
    rw [List.lookup_cons] at hl
    cases hpk : (k == p1) with
    | true =>
      have hkp : k = p1 := by simpa using hpk
      simp [List.any_cons, hkp]
    | false =>
      rw [hpk] at hl
      simp only [List.any_cons, Bool.or_eq_true]
      right
      exact ihm hl

theorem lookup_dictInsert (m : List (String × String)) (k v k' : String) :
    (dictInsert m k v).lookup k' = if k' = k then some v else m.lookup k' := by
  unfold dictInsert
  by_cases hany : (m.any fun p => p.1 == k) = true
  · rw [if_pos hany, lookup_map_update, hany]
    by_cases hk : k' = k
    · rw [if_pos hk, if_pos hk, if_pos rfl]
    · rw [if_neg hk, if_neg hk]
  · rw [if_neg hany, List.lookup_append]
    by_cases hk : k' = k
    · subst hk
      have hnone : m.lookup k' = none := by
        cases hl : m.lookup k' with
        | none => rfl
        | some w => exact absurd (any_key_of_lookup_some hl) hany
      rw [hnone, Option.none_or, if_pos rfl, lookup_cons_pos _ (by simp)]
    · rw [if_neg hk]
      have hsingle : List.lookup k' [(k, v)] = none := by
        rw [lookup_cons_neg _ (by simp [hk])]
        rfl
      rw [hsingle, Option.or_none]

theorem lookup_buildRenameDict_aux (cols : List String) (k : String) :
    ∀ (ren : List (String × String)) (m : List (String × String)),
      ((ren.foldl (fun m kv =>
          if cols.contains (normalize_column_name kv.1) then
            dictInsert m (normalize_column_name kv.1) kv.2
          else m) m).lookup k)
      = (if cols.contains k = true
          then ((ren.filter (fun p => normalize_column_name p.1 == k)).map Prod.snd).getLast?
          else none).or (m.lookup k) := by
  intro ren
  induction ren with
  | nil =>
    intro m
    simp only [List.foldl_nil, List.filter_nil, List.map_nil]
    split_ifs <;> rfl
  | cons kv rest ih =>
    intro m
    rw [List.foldl_cons, ih, List.filter_cons]
    by_cases hck : cols.contains k = true
    · by_cases hkk : (normalize_column_name kv.1 == k) = true
      · have hnk : normalize_column_name kv.1 = k := by simpa using hkk
        rw [if_pos hkk]
        rw [show (if cols.contains (normalize_column_name kv.1) = true
            then dictInsert m (normalize_column_name kv.1) kv.2 else m)
            = dictInsert m k kv.2 from by rw [hnk, if_pos hck]]
        rw [lookup_dictInsert, if_pos rfl]
        rw [if_pos hck, if_pos hck, List.map_cons, getLast?_cons_or, Option.or_assoc,
          Option.or_some]
      · rw [if_neg hkk]
        have hstep : (if cols.contains (normalize_column_name kv.1) = true
            then dictInsert m (normalize_column_name kv.1) kv.2 else m).lookup k
            = m.lookup k := by
          split_ifs with hcn
          · rw [lookup_dictInsert]
            have hne : ¬ k = normalize_column_name kv.1 := by
              intro he
              exact hkk (by simp [he])
            rw [if_neg hne]
          · rfl
        rw [hstep]
    · rw [if_neg hck, Option.none_or, if_neg hck, Option.none_or]
      have hstep : (if cols.contains (normalize_column_name kv.1) = true
          then dictInsert m (normalize_column_name kv.1) kv.2 else m).lookup k
          = m.lookup k := by
        split_ifs with hcn
        · rw [lookup_dictInsert]
          have : ¬ k = normalize_column_name kv.1 := by
            intro he
            rw [← he] at hcn
            exact hck hcn
          rw [if_neg this]
        · rfl
      rw [hstep]

theorem lookup_buildRenameDict (cols : List String) (ren : List (String × String))
    (k : String) :
    (buildRenameDict cols ren).lookup k
    = if cols.contains k = true
      then ((ren.filter (fun p => normalize_column_name p.1 == k)).map Prod.snd).getLast?
      else none := by
  unfold buildRenameDict
  rw [lookup_buildRenameDict_aux]
  rw [show List.lookup k ([] : List (String × String)) = none from rfl, Option.or_none]

theorem two_le_countP {α : Type} (p : α → Bool) (l : List α) (a b : α)
    (ha : a ∈ l) (hb : b ∈ l) (hab : a ≠ b) (hpa : p a = true) (hpb : p b = true) :
    2 ≤ l.countP p := by
  induction l with
  | nil => simp at ha
  | cons x xs ih =>
    rcases List.mem_cons.mp ha with rfl | ha'
    · rcases List.mem_cons.mp hb with rfl | hb'
      · exact absurd rfl hab
      · rw [List.countP_cons_of_pos _ _ hpa]
        have h1 : 0 < xs.countP p := List.countP_pos_iff.mpr ⟨b, hb', hpb⟩
        omega
    · rcases List.mem_cons.mp hb with rfl | hb'
      · rw [List.countP_cons_of_pos _ _ hpb]
        have h1 : 0 < xs.countP p := List.countP_pos_iff.mpr ⟨a, ha', hpa⟩
        omega
      · have h2 := ih ha' hb'
        rw [List.countP_cons]
        omega

end RenameLemmas

/-- C4 counterexample: with the two configured pairs `(a, x)` and `(b, x)`
on a table having columns `a` and `b`, the rename stage renames both
columns, producing a table with two columns named `x` — not a single
column with that target name. -/
theorem C4_counterexample :
    applyRename ⟨["a", "b"], [[some "1", some "2"]]⟩ [("a", "x"), ("b", "x")]
      = ⟨["x", "x"], [[some "1", some "2"]]⟩
    ∧ (["x", "x"] : List String).count "x" = 2 :=
  ⟨by decide, by decide⟩

/-- C4 (amended): each configured pair whose normalized source names an
existing column renames it to the target, pairs whose normalized source is
absent are silently ignored (they never enter the rename mapping, which
only holds keys present in the table), and when two configured sources
share one normalized key the later entry wins (dict semantics: the mapping
value is the last matching entry's target); but when two *distinct*
existing columns map to the same target, both are renamed, leaving at
least two columns with that target name rather than a single one. -/
theorem C4_rename (t : Table) (ren : List (String × String)) :
    (applyRename t ren).rows = t.rows
    ∧ (applyRename t ren).cols
        = t.cols.map (fun c => (((buildRenameDict t.cols ren).lookup c).getD c))
    ∧ (∀ k, t.cols.contains k = false → (buildRenameDict t.cols ren).lookup k = none)
    ∧ (∀ k, t.cols.contains k = true →
        (buildRenameDict t.cols ren).lookup k
          = ((ren.filter (fun p => normalize_column_name p.1 == k)).map Prod.snd).getLast?)
    ∧ (∀ a b tgt, a ∈ t.cols → b ∈ t.cols → a ≠ b →
        (buildRenameDict t.cols ren).lookup a = some tgt →
        (buildRenameDict t.cols ren).lookup b = some tgt →
        2 ≤ (applyRename t ren).cols.count tgt) := by
  refine ⟨rfl, rfl, ?_, ?_, ?_⟩
  · intro k hk
    rw [lookup_buildRenameDict, if_neg (by rw [hk]; exact Bool.false_ne_true)]
  · intro k hk
    rw [lookup_buildRenameDict, if_pos hk]
  · intro a b tgt ha hb hab hla hlb
    have hcnt : (applyRename t ren).cols.count tgt
        = t.cols.countP
            (fun c => (((buildRenameDict t.cols ren).lookup c).getD c) == tgt) := by
      show (t.cols.map _).count tgt = _
      rw [List.count_eq_countP, List.countP_map]
      rfl
    rw [hcnt]
    apply two_le_countP _ _ a b ha hb hab
    · simp [hla]
    · simp [hlb]

/-- Witness for C4's amended theorem: the ignored-key and duplicate-target
clauses applied at a concrete table and configuration. -/
theorem C4_rename_witness :
    (buildRenameDict ["a", "b"] [("a", "x"), ("b", "x")]).lookup "c" = none
    ∧ 2 ≤ (applyRename ⟨["a", "b"], []⟩ [("a", "x"), ("b", "x")]).cols.count "x" := by
  constructor
  · exact (C4_rename ⟨["a", "b"], []⟩ [("a", "x"), ("b", "x")]).2.2.1 "c" (by decide)
  · exact (C4_rename ⟨["a", "b"], []⟩ [("a", "x"), ("b", "x")]).2.2.2.2 "a" "b" "x"
      (by decide) (by decide) (by decide) (by decide) (by decide)

section ShapingLemmas

theorem contains_false_of_not_mem {l : List String} {c : String} (h : ¬ c ∈ l) :
    l.contains c = false := by
  cases hb : l.contains c with
  | false => rfl
  | true => exact absurd (contains_iff_mem.mp hb) h

theorem wf_rows {t : Table} (h : t.WF = true) :
    ∀ r ∈ t.rows, r.length = t.cols.length := by
  unfold Table.WF at h
  rw [List.all_eq_true] at h
  intro r hr
  simpa using h r hr

theorem addMissingCols_eq (order : List String) :
    ∀ t : Table, addMissingCols t order =
      { cols := t.cols ++ newCols t.cols order,
        rows := t.rows.map
          (fun r => r ++ (newCols t.cols order).map (fun _ => (some "" : Cell))) } := by
  induction order with
  | nil =>
    intro t
    rw [show newCols t.cols [] = [] from rfl]
    simp [addMissingCols]
  | cons c cs ih =>
    intro t
    unfold addMissingCols
    rw [List.foldl_cons]
    by_cases hc : t.cols.contains c = true
    · rw [if_pos hc]
      have := ih t
      unfold addMissingCols at this
      rw [this, show newCols t.cols (c :: cs) = newCols t.cols cs from by
        rw [newCols, if_pos hc]]
    · rw [if_neg hc]
      have := ih (addEmptyCol t c)
      unfold addMissingCols at this
      rw [this]
      rw [show newCols t.cols (c :: cs) = c :: newCols (t.cols ++ [c]) cs from by
        rw [newCols, if_neg hc]]
      unfold addEmptyCol
      congr 1
      · rw [List.append_assoc, List.singleton_append]
      · rw [List.map_map]
        apply List.map_congr_left
        intro r hr
        simp [List.append_assoc]

theorem mem_newCols : ∀ (ns cols : List String) (c : String),
    c ∈ ns → cols.contains c = false → c ∈ newCols cols ns := by
  intro ns
  induction ns with
  | nil =>
    intro cols c hc hcf
    simp at hc
  | cons c' cs ih =>
    intro cols c hc hcf
    rw [newCols]
    rcases List.mem_cons.mp hc with rfl | hc2
    · rw [if_neg (by rw [hcf]; exact Bool.false_ne_true)]
      exact List.mem_cons_self _ _
    · by_cases hc' : cols.contains c' = true
      · rw [if_pos hc']
        exact ih cols c hc2 hcf
      · rw [if_neg hc']
        by_cases hcc : c = c'
        · subst hcc
          exact List.mem_cons_self _ _
        · apply List.mem_cons_of_mem
          apply ih (cols ++ [c']) c hc2
          apply contains_false_of_not_mem
          simp only [List.mem_append, List.mem_singleton]
          rintro (hmem | rfl)
          · exact not_mem_of_contains_false hcf hmem
          · exact hcc rfl

theorem getCell_append_left {cols e : List String} {r p : List Cell} {c : String}
    (hc : cols.contains c = true) (hlen : r.length = cols.length) :
    getCell (cols ++ e) (r ++ p) c = getCell cols r c := by
  unfold getCell
  have hex : ∃ x ∈ cols, (x == c) = true := by
    obtain ⟨x, hx, hb⟩ := List.contains_iff_exists_mem_beq.mp hc
    rw [beq_iff_eq] at hb
    exact ⟨x, hx, by simp [hb]⟩
  have h1 := List.findIdx?_eq_some_of_exists (p := fun c0 => c0 == c) hex
  rw [List.findIdx?_append, h1, Option.or_some]
  have hi := List.findIdx_lt_length_of_exists (p := fun c0 => c0 == c) hex
  dsimp only
  rw [List.getD_append r p none _ (by omega)]

theorem getCell_append_pad {cols e : List String} {r : List Cell} {c : String}
    (hc : cols.contains c = false) (hmem : c ∈ e) (hlen : r.length = cols.length) :
    getCell (cols ++ e) (r ++ e.map (fun _ => (some "" : Cell))) c = some "" := by
  unfold getCell
  have h0 : List.findIdx? (fun c0 => c0 == c) cols = none := by
    rw [List.findIdx?_eq_none_iff]
    intro x hx
    by_cases hxc : x = c
    · subst hxc
      exact absurd (contains_iff_mem.mpr hx) (by rw [hc]; exact Bool.false_ne_true)
    · simp [hxc]
  have hex : ∃ x ∈ e, (x == c) = true := ⟨c, hmem, by simp⟩
  have h1 := List.findIdx?_eq_some_of_exists (p := fun c0 => c0 == c) hex
  have hj := List.findIdx_lt_length_of_exists (p := fun c0 => c0 == c) hex
  rw [List.findIdx?_append, h0, Option.none_or, h1, Option.map_some']
  dsimp only
  rw [List.getD_append_right r _ none _ (by omega)]
  rw [List.getD_eq_getElem?_getD, List.getElem?_map, hlen, Nat.add_sub_cancel]
  rw [List.getElem?_eq_getElem hj]
  rfl

end ShapingLemmas

/-- C6: with a non-empty `columns_order`, every listed name becomes a
column — names absent from the table are created with `""` in every row —
the resulting column list is exactly `columns_order` in that order (columns
not listed are dropped), and each surviving cell is the row's original
value for columns that existed; with an empty (or absent, hence falsy)
`columns_order` the table is untouched. -/
theorem C6_columns_order (t : Table) (order : List String) (hwf : t.WF = true) :
    (order = [] → applyColumnsOrder t order = t)
    ∧ (order ≠ [] →
        (applyColumnsOrder t order).cols = order
        ∧ (applyColumnsOrder t order).rows
            = t.rows.map (fun r => order.map (fun c =>
                if t.cols.contains c = true then getCell t.cols r c else some ""))) := by
  constructor
  · intro h
    subst h
    rfl
  · intro h
    have hne : ¬ order.isEmpty = true := by
      rw [List.isEmpty_iff]
      exact h
    rw [applyColumnsOrder, if_neg hne, addMissingCols_eq]
    refine ⟨rfl, ?_⟩
    unfold selectColumns
    rw [List.map_map]
    apply List.map_congr_left
    intro r hr
    have hlen := wf_rows hwf r hr
    apply List.map_congr_left
    intro c hcord
    by_cases hc : t.cols.contains c = true
    · rw [if_pos hc]
      exact getCell_append_left hc hlen
    · rw [if_neg hc]
      have hcf : t.cols.contains c = false := by
        cases hb : t.cols.contains c with
        | false => rfl
        | true => exact absurd hb hc
      exact getCell_append_pad hcf (mem_newCols order t.cols c hcord hcf) hlen

/-- Witness for C6 on a concrete table with one missing ordered column. -/
theorem C6_columns_order_witness :
    (applyColumnsOrder ⟨["a", "c"], [[some "1", some "2"]]⟩ ["a", "b", "c"]).cols
      = ["a", "b", "c"]
    ∧ (applyColumnsOrder ⟨["a", "c"], [[some "1", some "2"]]⟩ ["a", "b", "c"]).rows
      = [[some "1", some "", some "2"]] := by
  have h := (C6_columns_order ⟨["a", "c"], [[some "1", some "2"]]⟩ ["a", "b", "c"]
    (by decide)).2 (by decide)
  refine ⟨h.1, ?_⟩
  rw [h.2]
  decide

end OrdersToSuppliers
